import Mathlib

/-!
Verification of the algorithmic core of the terraform-provider-gopass
repository: the path-tree builder (`buildNestedObject` in the ephemeral
env resource), the revision-count computation (`GetRevisionCount` in
`gopass_client.go`), the drift detection of `Read`, the write gate of
`Update` (`secret_resource.go`), and the partial-failure tolerance of
`GetEnvSecrets`.

Conventions of the shallow embedding:
* Go maps are embedded as association lists `List (String × α)` whose
  order records the (in Go nondeterministic) iteration order of the map;
  keys are unique in every list that stands for a Go map.
* A Go runtime panic is embedded as `Option.none` of the function result.
* Go `int64` values are embedded as `Int` (the only operations used are
  comparisons and list lengths, which cannot overflow an int64 here).
-/

namespace Gopass

/-- One node of the tree built by `buildNestedObject`.  Mirrors the Go
struct `node { value *string; children map[string]*node }` of
`env_ephemeral.go`: `value = some v` embeds a non-nil value pointer,
`children = none` embeds a nil map, `children = some cs` embeds an
allocated map with iteration order `cs`. -/
inductive GoNode : Type where
  | mk (value : Option String) (children : Option (List (String × GoNode)))

/-- The value field of a node. -/
def GoNode.value : GoNode → Option String
  | .mk v _ => v

/-- The children field of a node. -/
def GoNode.children : GoNode → Option (List (String × GoNode))
  | .mk _ cs => cs

/-- Go map read `m[k]` on an association list (nil is handled by the
caller, since reading a nil Go map returns the zero value). -/
def getA {α : Type} : List (String × α) → String → Option α
  | [], _ => none
  | (k, v) :: rest, key => if k = key then some v else getA rest key

/-- Go map write `m[k] = v` on an association list: replaces the binding
if the key is present, otherwise appends it. -/
def setA {α : Type} : List (String × α) → String → α → List (String × α)
  | [], key, v => [(key, v)]
  | (k, w) :: rest, key, v =>
      if k = key then (key, v) :: rest else (k, w) :: setA rest key v

/-- `strings.Split` on the separator "/", working on the character list:
splits at every slash, keeping empty segments, and always returns at
least one segment (Go semantics for a non-empty separator). -/
def splitSlash : List Char → List (List Char)
  | [] => [[]]
  | c :: cs =>
      if c = '/' then [] :: splitSlash cs
      else
        match splitSlash cs with
        | [] => [[c]]
        | seg :: rest => (c :: seg) :: rest

/-- The segment list of a slash-separated path, as strings
(`strings.Split(path, "/")`). -/
def splitPath (s : String) : List String :=
  (splitSlash s.data).map (fun cs => String.mk cs)

/-- The empty branch node: non-nil value-less node with an allocated
empty children map (`&node{children: make(map[string]*node)}`). -/
def emptyBranch : GoNode := GoNode.mk none (some [])

/-- The leaf node holding a value (`&node{value: &valueCopy}`; its
children map is nil). -/
def leafNode (v : String) : GoNode := GoNode.mk (some v) none

/-- The insertion loop body of `buildNestedObject` for one path: walks
the segments, creating missing intermediate branches, and attaches a
leaf at the last segment.  Writing into a node whose children map is
nil — which happens exactly when a previously created leaf occupies an
intermediate position — is Go `assignment to entry in nil map`, a
runtime panic, embedded as `none`. -/
def insertSegs : GoNode → List String → String → Option GoNode
  | t, [], _ => some t
  | .mk v cs?, [part], value =>
      match cs? with
      | none => none
      | some cs => some (.mk v (some (setA cs part (leafNode value))))
  | .mk v cs?, part :: rest, value =>
      match cs? with
      | none => none
      | some cs =>
          let child :=
            match getA cs part with
            | none => emptyBranch
            | some c => c
          match insertSegs child rest value with
          | none => none
          | some c' => some (.mk v (some (setA cs part c')))

/-- `buildNestedObject` of `env_ephemeral.go`, at the level of the tree
it builds (the trailing conversion of the tree into a Terraform object
value is a direct structural copy).  The input list is the flat map
together with its iteration order; `none` embeds a panic during
insertion. -/
def buildNestedObject : List (String × String) → Option GoNode :=
  go emptyBranch
where
  /-- Folds the insertion loop over the remaining entries. -/
  go : GoNode → List (String × String) → Option GoNode
    | t, [] => some t
    | t, (path, value) :: rest =>
        match insertSegs t (splitPath path) value with
        | none => none
        | some t' => go t' rest

/-- Following a segment list from a node: descends through the children
maps and checks that the node reached after the last segment is a leaf
holding exactly the given value. -/
def reachesLeaf : GoNode → List String → String → Bool
  | .mk v cs?, [], w => v == some w && cs?.isNone
  | .mk _ none, _ :: _, _ => false
  | .mk _ (some cs), s :: rest, w =>
      match getA cs s with
      | none => false
      | some c => reachesLeaf c rest w

/-- Builds the tree and follows one path in it; `false` when the build
panics or the path does not lead to a leaf with that value. -/
def buildsAndReaches (fm : List (String × String)) (p v : String) : Bool :=
  match buildNestedObject fm with
  | none => false
  | some t => reachesLeaf t (splitPath p) v

/-- Leaf test: the node holds exactly this value and has a nil
children map. -/
def isLeafB (n : GoNode) (v : String) : Bool :=
  n.value == some v && n.children.isNone

/-- Shape check for the structural-sharing example of the spec: root has
exactly one child `a`; `a` is a branch with exactly the children `b` and
`e`; `b` has exactly the leaf children `c` (value "1") and `d` (value
"2"); `e` has exactly the leaf child `f` (value "3"). -/
def checkSharedShape : Option GoNode → Bool
  | none => false
  | some (.mk rv rcs?) =>
      match rcs? with
      | none => false
      | some rcs =>
          rv == none && rcs.length == 1 &&
          (match getA rcs "a" with
           | some (.mk av (some acs)) =>
               av == none && acs.length == 2 &&
               (match getA acs "b", getA acs "e" with
                | some (.mk bv (some bcs)), some (.mk ev (some ecs)) =>
                    bv == none && bcs.length == 2 &&
                    (match getA bcs "c", getA bcs "d" with
                     | some c, some d => isLeafB c "1" && isLeafB d "2"
                     | _, _ => false) &&
                    ev == none && ecs.length == 1 &&
                    (match getA ecs "f" with
                     | some f => isLeafB f "3"
                     | _ => false)
                | _, _ => false)
           | _ => false)

/-- All six iteration orders of the three-entry map of the
structural-sharing example (a Go map is iterated in an arbitrary
order). -/
def c7Orders : List (List (String × String)) :=
  [[("a/b/c", "1"), ("a/b/d", "2"), ("a/e/f", "3")],
   [("a/b/c", "1"), ("a/e/f", "3"), ("a/b/d", "2")],
   [("a/b/d", "2"), ("a/b/c", "1"), ("a/e/f", "3")],
   [("a/b/d", "2"), ("a/e/f", "3"), ("a/b/c", "1")],
   [("a/e/f", "3"), ("a/b/c", "1"), ("a/b/d", "2")],
   [("a/e/f", "3"), ("a/b/d", "2"), ("a/b/c", "1")]]

/-- Two segment lists are incomparable when neither is a (not
necessarily proper) prefix of the other. -/
def segsIncomp (a b : List String) : Bool :=
  !a.isPrefixOf b && !b.isPrefixOf a

/-- The keys of the flat map are pairwise incomparable as segment
lists: no key is a duplicate, a proper segment-prefix, or a segment
extension of another key. -/
def pairwiseIncomp : List (String × String) → Bool
  | [] => true
  | x :: rest =>
      rest.all (fun y => segsIncomp (splitPath x.1) (splitPath y.1)) &&
      pairwiseIncomp rest

/-- No previously created leaf blocks this segment list in the tree:
the node is a branch, and wherever a child already exists along the
intermediate segments it is itself unblocked for the remaining
segments.  (Nothing is required of the child at the final segment — the
insertion overwrites it.) -/
def Unblocked : GoNode → List String → Prop
  | _, [] => True
  | .mk _ cs?, [_] => cs?.isSome = true
  | .mk _ cs?, s :: rest =>
      ∃ cs, cs? = some cs ∧ ∀ c, getA cs s = some c → Unblocked c rest

/-! ### GetRevisionCount (`gopass_client.go`) -/

/-- A history entry returned by the backend; only the number of entries
matters to `GetRevisionCount`. -/
structure Revision where
  id : String

/-- The outcome of the existence check `store.Get(ctx, path, "latest")`:
the returned secret pointer (nil or not) and the returned error (nil or
a message). -/
structure GetResult where
  secret : Option Unit
  err : Option String

/-- `strings.Contains(s, sub)`: `sub` occurs as a contiguous substring
of `s`, on character lists. -/
def hasSubstr (sub : List Char) : List Char → Bool
  | [] => sub.isEmpty
  | c :: cs => sub.isPrefixOf (c :: cs) || hasSubstr sub cs

/-- `strings.Contains` on strings. -/
def goContains (s sub : String) : Bool :=
  hasSubstr sub.data s.data

/-- `GetRevisionCount` of `gopass_client.go`, from the point after the
store is initialized: branches on the existence-check outcome, treats a
"not found" error and a nil secret as count 0, propagates any other
existence-check error, absorbs a failing `store.Revisions` call into
the fallback count 1, normalizes an empty history to 1, and otherwise
returns the history length. -/
def GetRevisionCount (g : GetResult) (revs : Except String (List Revision)) :
    Except String Int :=
  match g.err with
  | some msg =>
      if goContains msg "not found" then .ok 0
      else .error ("failed to check if secret exists: " ++ msg)
  | none =>
      match g.secret with
      | none => .ok 0
      | some _ =>
          match revs with
          | .error _ => .ok 1
          | .ok revisions =>
              if revisions.length = 0 then .ok 1
              else .ok (revisions.length : Int)

/-! ### Drift detection in `Read` (`secret_resource.go`) -/

/-- The drift-detection section of `Read`: given the revision count
stored in state and the outcome of `GetRevisionCount`, returns whether
the drift warning is emitted and the revision count written back to
state.  A failing revision lookup only logs and keeps the stored count;
no branch of this section produces an error. -/
def readDrift (stored : Int) (revResult : Except String Int) : Bool × Int :=
  match revResult with
  | .error _ => (false, stored)
  | .ok current => (decide (stored > 0) && decide (current > stored), current)

/-! ### The write gate of `Update` (`secret_resource.go`) -/

/-- A Terraform string attribute value: null, unknown, or a known
string. -/
inductive TFValue : Type where
  | null
  | unknown
  | known (s : String)

/-- `IsNull()` of a string attribute. -/
def TFValue.isNull : TFValue → Bool
  | .null => true
  | _ => false

/-- `IsUnknown()` of a string attribute. -/
def TFValue.isUnknown : TFValue → Bool
  | .unknown => true
  | _ => false

/-- `ValueString()`: the known string, or the zero value. -/
def TFValue.valueString : TFValue → String
  | .known s => s
  | _ => ""

/-- The `value_wo_version` gate of `Update`: the plan and state version
markers are `Option Int` (null or a known int64).  Returns the value
passed to `SetSecret` (`none` when no write is performed) and whether
the "version changed but no value provided" warning is emitted.
Mirrors lines 321-351 of `secret_resource.go`. -/
def updateGate (planVersion stateVersion : Option Int) (configValue : TFValue) :
    Option String × Bool :=
  let versionChanged :=
    if planVersion.isSome && stateVersion.isSome then
      decide (planVersion.getD 0 ≠ stateVersion.getD 0)
    else if planVersion.isSome && stateVersion.isNone then true
    else false
  if versionChanged then
    if !configValue.isNull && !configValue.isUnknown then
      (some configValue.valueString, false)
    else (none, true)
  else (none, false)

/-- `Update` together with its effect on the gopass store (embedded as
an association list from paths to stored values): the store changes
exactly when the gate performs a write. -/
def goUpdate (store : List (String × String)) (path : String)
    (planVersion stateVersion : Option Int) (configValue : TFValue) :
    List (String × String) × Bool :=
  match updateGate planVersion stateVersion configValue with
  | (some v, warned) => (setA store path v, warned)
  | (none, warned) => (store, warned)

/-- The claim-side reading of "the caller-supplied version marker
differs from the previously recorded marker, an absent previous marker
counting as different": the plan carries a marker, and the state either
carries none or carries a different one. -/
def markerDiffers (planVersion stateVersion : Option Int) : Prop :=
  ∃ pv, planVersion = some pv ∧
    (stateVersion = none ∨ ∃ sv, stateVersion = some sv ∧ pv ≠ sv)

/-! ### GetEnvSecrets (`gopass_client.go`) -/

/-- `strings.TrimSuffix`. -/
def goTrimSuffix (s suffix : String) : String :=
  if suffix.data.isSuffixOf s.data then
    String.mk (s.data.take (s.data.length - suffix.data.length))
  else s

/-- `strings.TrimPrefix`. -/
def goTrimPrefixStr (s p : String) : String :=
  if p.data.isPrefixOf s.data then String.mk (s.data.drop p.data.length)
  else s

/-- `true` exactly on a successful read outcome. -/
def isOkB (r : Except String String) : Bool :=
  match r with
  | .ok _ => true
  | .error _ => false

/-- The accumulation loop of `GetEnvSecrets`: for each listed path,
compute the key by trimming the prefix, read the secret, skip the entry
when the read fails, and otherwise store the value under the key. -/
def envFold (getSecret : String → Except String String) (pre : String) :
    List (String × String) → List String → List (String × String)
  | result, [] => result
  | result, fullPath :: rest =>
      let key := goTrimPrefixStr fullPath (pre ++ "/")
      match getSecret fullPath with
      | .error _ => envFold getSecret pre result rest
      | .ok value => envFold getSecret pre (setA result key value) rest

/-- `GetEnvSecrets` of `gopass_client.go`: the listing outcome (which
already includes store-initialization failures) is either an error,
propagated unchanged, or the list of secret paths, folded into a map of
the readable secrets. -/
def GetEnvSecrets (listResult : Except String (List String))
    (getSecret : String → Except String String) (pre : String) :
    Except String (List (String × String)) :=
  match listResult with
  | .error e => .error ("failed to list secrets: " ++ e)
  | .ok secretPaths =>
      .ok (envFold getSecret (goTrimSuffix pre "/") [] secretPaths)

/-- A concrete read function used to instantiate the partial-failure
theorem: reading `p/x` succeeds with "1", every other read fails. -/
def sampleGetSecret (path : String) : Except String String :=
  if path = "p/x" then .ok "1" else .error "gpg failure"

example : splitPath "a/b" = ["a", "b"] := by decide
example : splitPath "" = [""] := by decide
example : splitPath "FLAT" = ["FLAT"] := by decide
example : buildNestedObject [] = some (GoNode.mk none (some [])) := rfl
example : buildNestedObject [("a", "1"), ("a/b", "2")] = none := rfl
example : buildNestedObject [("a/b", "2"), ("a", "1")] =
    some (GoNode.mk none (some [("a", GoNode.mk (some "1") none)])) := rfl
example : buildsAndReaches [("a/b", "2"), ("a", "1")] "a/b" "2" = false := by decide
example : buildsAndReaches [("a/b/c", "1"), ("FLAT", "x")] "a/b/c" "1" = true := by decide

/-! ### Association-list lemmas -/

theorem getA_setA_self {α : Type} (l : List (String × α)) (k : String) (v : α) :
    getA (setA l k v) k = some v := by
  induction l with
  | nil => simp [getA, setA]
  | cons x rest ih =>
      obtain ⟨k0, w⟩ := x
      by_cases h : k0 = k
      · simp [setA, h, getA]
      · simp [setA, h, getA, ih]

theorem getA_setA_ne {α : Type} (l : List (String × α)) (k k' : String) (v : α)
    (h : k' ≠ k) : getA (setA l k v) k' = getA l k' := by
  induction l with
  | nil => simp [getA, setA, Ne.symm h]
  | cons x rest ih =>
      obtain ⟨k0, w⟩ := x
      by_cases hk : k0 = k
      · subst hk
        simp [setA, getA, Ne.symm h, fun hc : k0 = k' => h (hc ▸ rfl)]
      · by_cases hk' : k0 = k'
        · simp [setA, hk, getA, hk', h]
        · simp [setA, hk, getA, hk', ih]

/-! ### Unfolding lemmas for the tree predicates -/

theorem reachesLeaf_nil_eq (tv : Option String) (cs? : Option (List (String × GoNode)))
    (w : String) : reachesLeaf (.mk tv cs?) [] w = (tv == some w && cs?.isNone) := by
  cases cs? <;> rfl

theorem reachesLeaf_cons_none (tv : Option String) (s : String) (q : List String)
    (w : String) : reachesLeaf (.mk tv none) (s :: q) w = false := rfl

theorem reachesLeaf_cons_some (tv : Option String) (cs : List (String × GoNode))
    (s : String) (q : List String) (w : String) :
    reachesLeaf (.mk tv (some cs)) (s :: q) w =
      (match getA cs s with
       | none => false
       | some c => reachesLeaf c q w) := rfl

theorem unblocked_single_iff (tv : Option String) (cs? : Option (List (String × GoNode)))
    (s : String) : Unblocked (.mk tv cs?) [s] ↔ cs?.isSome = true := Iff.rfl

theorem unblocked_cons_iff (tv : Option String) (cs? : Option (List (String × GoNode)))
    (s r : String) (q : List String) :
    Unblocked (.mk tv cs?) (s :: r :: q) ↔
      ∃ cs, cs? = some cs ∧ ∀ c, getA cs s = some c → Unblocked c (r :: q) := Iff.rfl

theorem unblocked_empty (q : List String) : Unblocked emptyBranch q := by
  match q with
  | [] => trivial
  | [s] => exact rfl
  | s :: r :: q' => exact ⟨[], rfl, fun c h => Option.noConfusion h⟩

theorem segsIncomp_comm (a b : List String) : segsIncomp a b = segsIncomp b a := by
  simp [segsIncomp, Bool.and_comm]

theorem segsIncomp_cons (s : String) (a b : List String) :
    segsIncomp (s :: a) (s :: b) = segsIncomp a b := by
  simp [segsIncomp, List.isPrefixOf]

theorem splitSlash_ne_nil (l : List Char) : splitSlash l ≠ [] := by
  cases l with
  | nil => simp [splitSlash]
  | cons c cs =>
      simp only [splitSlash]
      by_cases h : c = '/'
      · simp [h]
      · simp only [if_neg h]
        cases splitSlash cs <;> simp

theorem splitPath_ne_nil (s : String) : splitPath s ≠ [] := by
  intro h
  exact splitSlash_ne_nil s.data (by simpa [splitPath] using h)

/-! ### Insertion lemmas -/

theorem insert_ok (segs : List String) :
    ∀ (t : GoNode) (v : String), segs ≠ [] → Unblocked t segs →
      ∃ t', insertSegs t segs v = some t' ∧ reachesLeaf t' segs v = true := by
  induction segs with
  | nil => intro t v h _; exact absurd rfl h
  | cons s rest ih =>
      intro t v _ hub
      obtain ⟨tv, cs?⟩ := t
      cases rest with
      | nil =>
          cases cs? with
          | none => simp [unblocked_single_iff] at hub
          | some cs =>
              refine ⟨.mk tv (some (setA cs s (leafNode v))), rfl, ?_⟩
              rw [reachesLeaf_cons_some, getA_setA_self]
              simp [leafNode, reachesLeaf_nil_eq]
      | cons r rest' =>
          obtain ⟨cs, hcs, hchild⟩ := hub
          subst hcs
          cases hga : getA cs s with
          | none =>
              obtain ⟨c', hc', hrc'⟩ :=
                ih emptyBranch v (List.cons_ne_nil r rest') (unblocked_empty (r :: rest'))
              refine ⟨.mk tv (some (setA cs s c')), ?_, ?_⟩
              · simp [insertSegs, hga, hc']
              · rw [reachesLeaf_cons_some, getA_setA_self]
                exact hrc'
          | some c =>
              obtain ⟨c', hc', hrc'⟩ :=
                ih c v (List.cons_ne_nil r rest') (hchild c hga)
              refine ⟨.mk tv (some (setA cs s c')), ?_, ?_⟩
              · simp [insertSegs, hga, hc']
              · rw [reachesLeaf_cons_some, getA_setA_self]
                exact hrc'

theorem insert_frame_reach (segs : List String) :
    ∀ (t t' : GoNode) (v : String) (q : List String) (w : String),
      insertSegs t segs v = some t' → segsIncomp segs q = true →
      reachesLeaf t q w = true → reachesLeaf t' q w = true := by
  induction segs with
  | nil =>
      intro t t' v q w hins _ hr
      obtain ⟨tv, cs?⟩ := t
      obtain rfl : GoNode.mk tv cs? = t' := Option.some_inj.mp hins
      exact hr
  | cons s rest ih =>
      intro t t' v q w hins hinc hr
      obtain ⟨tv, cs?⟩ := t
      cases cs? with
      | none =>
          exfalso
          cases rest with
          | nil => exact Option.noConfusion hins
          | cons r rest' => exact Option.noConfusion hins
      | some cs =>
          cases rest with
          | nil =>
              obtain rfl : t' = .mk tv (some (setA cs s (leafNode v))) :=
                (Option.some_inj.mp hins).symm
              cases q with
              | nil => exfalso; simp [reachesLeaf_nil_eq] at hr
              | cons tq q' =>
                  by_cases hts : tq = s
                  · subst hts
                    exfalso
                    simp [segsIncomp, List.isPrefixOf] at hinc
                  · rw [reachesLeaf_cons_some, getA_setA_ne cs s tq (leafNode v) hts]
                    rw [reachesLeaf_cons_some] at hr
                    exact hr
          | cons r rest' =>
              cases hga : getA cs s with
              | none =>
                  simp only [insertSegs, hga] at hins
                  cases hrec : insertSegs emptyBranch (r :: rest') v with
                  | none => rw [hrec] at hins; exact Option.noConfusion hins
                  | some c' =>
                      rw [hrec] at hins
                      obtain rfl : t' = .mk tv (some (setA cs s c')) :=
                        (Option.some_inj.mp hins).symm
                      cases q with
                      | nil => exfalso; simp [reachesLeaf_nil_eq] at hr
                      | cons tq q' =>
                          by_cases hts : tq = s
                          · subst hts
                            rw [reachesLeaf_cons_some, hga] at hr
                            exact absurd hr (by simp)
                          · rw [reachesLeaf_cons_some, getA_setA_ne cs s tq c' hts]
                            rw [reachesLeaf_cons_some] at hr
                            exact hr
              | some c =>
                  simp only [insertSegs, hga] at hins
                  cases hrec : insertSegs c (r :: rest') v with
                  | none => rw [hrec] at hins; exact Option.noConfusion hins
                  | some c' =>
                      rw [hrec] at hins
                      obtain rfl : t' = .mk tv (some (setA cs s c')) :=
                        (Option.some_inj.mp hins).symm
                      cases q with
                      | nil => exfalso; simp [reachesLeaf_nil_eq] at hr
                      | cons tq q' =>
                          by_cases hts : tq = s
                          · subst hts
                            rw [reachesLeaf_cons_some, hga] at hr
                            rw [reachesLeaf_cons_some, getA_setA_self]
                            exact ih c c' v q' w hrec
                              (by rw [segsIncomp_cons] at hinc; exact hinc) hr
                          · rw [reachesLeaf_cons_some, getA_setA_ne cs s tq c' hts]
                            rw [reachesLeaf_cons_some] at hr
                            exact hr

theorem insert_frame_unblocked (segs : List String) :
    ∀ (t t' : GoNode) (v : String) (q : List String),
      insertSegs t segs v = some t' → segsIncomp segs q = true →
      Unblocked t q → Unblocked t' q := by
  induction segs with
  | nil =>
      intro t t' v q hins _ hu
      obtain ⟨tv, cs?⟩ := t
      obtain rfl : GoNode.mk tv cs? = t' := Option.some_inj.mp hins
      exact hu
  | cons s rest ih =>
      intro t t' v q hins hinc hu
      obtain ⟨tv, cs?⟩ := t
      cases cs? with
      | none =>
          exfalso
          cases rest with
          | nil => exact Option.noConfusion hins
          | cons r rest' => exact Option.noConfusion hins
      | some cs =>
          cases rest with
          | nil =>
              obtain rfl : t' = .mk tv (some (setA cs s (leafNode v))) :=
                (Option.some_inj.mp hins).symm
              cases q with
              | nil => trivial
              | cons tq q' =>
                  cases q' with
                  | nil => exact rfl
                  | cons rq q'' =>
                      by_cases hts : tq = s
                      · subst hts
                        exfalso
                        simp [segsIncomp, List.isPrefixOf] at hinc
                      · have hcond : ∀ c, getA cs tq = some c → Unblocked c (rq :: q'') := by
                          obtain ⟨cs0, hcs0, hcond0⟩ := hu
                          obtain rfl : cs = cs0 := Option.some_inj.mp hcs0
                          exact hcond0
                        refine ⟨setA cs s (leafNode v), rfl, fun c hc => ?_⟩
                        rw [getA_setA_ne cs s tq (leafNode v) hts] at hc
                        exact hcond c hc
          | cons r rest' =>
              have hmain : ∀ (child c' : GoNode), insertSegs child (r :: rest') v = some c' →
                  t' = .mk tv (some (setA cs s c')) →
                  (∀ cx, getA cs s = some cx → cx = child) →
                  (getA cs s = none → child = emptyBranch) →
                  Unblocked t' q := by
                intro child c' hrec ht' hcx hnone
                subst ht'
                cases q with
                | nil => trivial
                | cons tq q' =>
                    cases q' with
                    | nil => exact rfl
                    | cons rq q'' =>
                        have hcond : ∀ c, getA cs tq = some c → Unblocked c (rq :: q'') := by
                          obtain ⟨cs0, hcs0, hcond0⟩ := hu
                          obtain rfl : cs = cs0 := Option.some_inj.mp hcs0
                          exact hcond0
                        by_cases hts : tq = s
                        · subst hts
                          refine ⟨setA cs tq c', rfl, fun c hc => ?_⟩
                          rw [getA_setA_self] at hc
                          obtain rfl : c' = c := Option.some_inj.mp hc
                          have hinc' : segsIncomp (r :: rest') (rq :: q'') = true := by
                            rw [segsIncomp_cons] at hinc; exact hinc
                          cases hga : getA cs tq with
                          | none =>
                              have hce : child = emptyBranch := hnone hga
                              exact ih child c' v (rq :: q'') hrec hinc'
                                (by rw [hce]; exact unblocked_empty (rq :: q''))
                          | some cx =>
                              have hcc : cx = child := hcx cx hga
                              exact ih child c' v (rq :: q'') hrec hinc'
                                (by rw [← hcc]; exact hcond cx hga)
                        · refine ⟨setA cs s c', rfl, fun c hc => ?_⟩
                          rw [getA_setA_ne cs s tq c' hts] at hc
                          exact hcond c hc
              cases hga : getA cs s with
              | none =>
                  simp only [insertSegs, hga] at hins
                  cases hrec : insertSegs emptyBranch (r :: rest') v with
                  | none => rw [hrec] at hins; exact Option.noConfusion hins
                  | some c' =>
                      rw [hrec] at hins
                      exact hmain emptyBranch c' hrec (Option.some_inj.mp hins).symm
                        (fun cx hcx0 => by rw [hga] at hcx0; exact Option.noConfusion hcx0)
                        (fun _ => rfl)
              | some c =>
                  simp only [insertSegs, hga] at hins
                  cases hrec : insertSegs c (r :: rest') v with
                  | none => rw [hrec] at hins; exact Option.noConfusion hins
                  | some c' =>
                      rw [hrec] at hins
                      exact hmain c c' hrec (Option.some_inj.mp hins).symm
                        (fun cx hcx0 => by
                          rw [hga] at hcx0; exact (Option.some_inj.mp hcx0).symm)
                        (fun hnone => by rw [hga] at hnone; exact Option.noConfusion hnone)

theorem buildGo_spec (fm : List (String × String)) :
    ∀ t : GoNode,
      (∀ x ∈ fm, Unblocked t (splitPath x.1)) →
      pairwiseIncomp fm = true →
      ∃ t', buildNestedObject.go t fm = some t' ∧
        (∀ x ∈ fm, reachesLeaf t' (splitPath x.1) x.2 = true) ∧
        (∀ q w, reachesLeaf t q w = true →
          (∀ x ∈ fm, segsIncomp (splitPath x.1) q = true) →
          reachesLeaf t' q w = true) ∧
        (∀ q, Unblocked t q →
          (∀ x ∈ fm, segsIncomp (splitPath x.1) q = true) →
          Unblocked t' q) := by
  induction fm with
  | nil =>
      intro t _ _
      exact ⟨t, rfl, by simp, fun q w hr _ => hr, fun q hu _ => hu⟩
  | cons x rest ih =>
      obtain ⟨p, v⟩ := x
      intro t hub hpw
      simp only [pairwiseIncomp, Bool.and_eq_true, List.all_eq_true] at hpw
      obtain ⟨hpw1, hpw2⟩ := hpw
      obtain ⟨t1, hins, hreach1⟩ :=
        insert_ok (splitPath p) t v (splitPath_ne_nil p) (hub (p, v) (List.mem_cons_self _ _))
      have hub1 : ∀ y ∈ rest, Unblocked t1 (splitPath y.1) := fun y hy =>
        insert_frame_unblocked (splitPath p) t t1 v (splitPath y.1) hins
          (hpw1 y hy) (hub y (List.mem_cons_of_mem _ hy))
      obtain ⟨t', hgo, hall, hframeR, hframeU⟩ := ih t1 hub1 hpw2
      refine ⟨t', ?_, ?_, ?_, ?_⟩
      · simp [buildNestedObject.go, hins, hgo]
      · intro y hy
        rcases List.mem_cons.mp hy with h | h
        · subst h
          exact hframeR (splitPath p) v hreach1
            (fun z hz => by rw [segsIncomp_comm]; exact hpw1 z hz)
        · exact hall y h
      · intro q w hr hq
        exact hframeR q w
          (insert_frame_reach (splitPath p) t t1 v q w hins
            (hq (p, v) (List.mem_cons_self _ _)) hr)
          (fun z hz => hq z (List.mem_cons_of_mem _ hz))
      · intro q hu hq
        exact hframeU q
          (insert_frame_unblocked (splitPath p) t t1 v q hins
            (hq (p, v) (List.mem_cons_self _ _)) hu)
          (fun z hz => hq z (List.mem_cons_of_mem _ hz))

/-! ### Claim theorems for the tree builder -/

/-- C1 (code_bug evaluation): on the flat map with the two keys `a` and
`a/b`, iterated with `a` first, `buildNestedObject` does not return a
tree: the leaf created for `a` occupies the intermediate segment of
`a/b`, and the insertion loop then assigns into the leaf's nil children
map, a Go runtime panic (embedded as `none`).  This refutes the claim
that the builder is total with last-write-wins conflict resolution. -/
theorem buildNestedObject_panics_on_leaf_conflict :
    buildNestedObject [("a", "1"), ("a/b", "2")] = none := rfl

/-- C2 (counterexample): a FlatSecretMap with the keys `a/b` and `a`,
iterated with `a/b` first, builds without panicking, but the pair
`("a/b", "2")` is not represented in the output tree: the later leaf
written at `a` overwrote the branch holding it. -/
theorem buildNestedObject_drops_shadowed_pair :
    (buildNestedObject [("a/b", "2"), ("a", "1")]).isSome = true ∧
    buildsAndReaches [("a/b", "2"), ("a", "1")] "a/b" "2" = false :=
  ⟨rfl, rfl⟩

/-- C2 (amended): for every FlatSecretMap whose keys are pairwise
incomparable as segment lists (no key is a duplicate or a
segment-prefix of another), `buildNestedObject` returns a tree in which
every input pair is represented: following the slash-separated segments
of its path from the root reaches a leaf holding exactly the original
value. -/
theorem buildNestedObject_complete_on_incomparable_keys
    (fm : List (String × String)) (h : pairwiseIncomp fm = true) :
    ∃ t, buildNestedObject fm = some t ∧
      ∀ x ∈ fm, reachesLeaf t (splitPath x.1) x.2 = true := by
  obtain ⟨t, hgo, hall, _, _⟩ :=
    buildGo_spec fm emptyBranch (fun x _ => unblocked_empty (splitPath x.1)) h
  exact ⟨t, hgo, hall⟩

/-- Witness for the amended C2 at a concrete prefix-free map mixing a
nested and a flat key. -/
theorem buildNestedObject_complete_on_incomparable_keys_witness :
    pairwiseIncomp [("a/b", "1"), ("a/c", "2"), ("FLAT", "x")] = true ∧
    ∃ t, buildNestedObject [("a/b", "1"), ("a/c", "2"), ("FLAT", "x")] = some t ∧
      ∀ x ∈ [("a/b", "1"), ("a/c", "2"), ("FLAT", "x")],
        reachesLeaf t (splitPath x.1) x.2 = true :=
  ⟨by decide, buildNestedObject_complete_on_incomparable_keys _ (by decide)⟩

/-- C7: for every iteration order of the map
`{a/b/c: 1, a/b/d: 2, a/e/f: 3}`, the built tree has exactly one root
child `a`, whose children are exactly `b` and `e`; `b` has exactly the
leaf children `c` (value 1) and `d` (value 2), and `e` has exactly the
leaf child `f` (value 3) — the shared prefixes occupy a single
intermediate branch each. -/
theorem buildNestedObject_structural_sharing :
    (c7Orders.all fun fm => checkSharedShape (buildNestedObject fm)) = true := by
  decide

/-- C8: the empty FlatSecretMap builds a branch with an allocated,
empty children map — not a nil node. -/
theorem buildNestedObject_empty_map :
    buildNestedObject [] = some (GoNode.mk none (some [])) := rfl

/-! ### Claim theorems for GetRevisionCount -/

/-- C3: `GetRevisionCount` returns 0 when the secret does not exist
(nil secret without error, or a "not found" error), 1 when the secret
exists and the history lookup succeeds with an empty list, and the
length of the history list when it is non-empty. -/
theorem getRevisionCount_value_cases
    (g : GetResult) (revs : Except String (List Revision)) :
    (g.err = none → g.secret = none → GetRevisionCount g revs = .ok 0) ∧
    (∀ msg, g.err = some msg → goContains msg "not found" = true →
      GetRevisionCount g revs = .ok 0) ∧
    (∀ s, g.err = none → g.secret = some s →
      GetRevisionCount g (.ok []) = .ok 1) ∧
    (∀ s l, g.err = none → g.secret = some s → l ≠ [] →
      GetRevisionCount g (.ok l) = .ok (l.length : Int)) := by
  obtain ⟨gs, ge⟩ := g
  refine ⟨?_, ?_, ?_, ?_⟩
  · intro h1 h2
    subst h1; subst h2
    simp [GetRevisionCount]
  · intro msg h1 h2
    subst h1
    simp [GetRevisionCount, h2]
  · intro s h1 h2
    subst h1; subst h2
    simp [GetRevisionCount]
  · intro s l h1 h2 h3
    subst h1; subst h2
    simp [GetRevisionCount, List.length_eq_zero, h3]

/-- Witness for C3 at the four concrete cases: absent secret, "not
found" error, empty history, three-entry history. -/
theorem getRevisionCount_value_cases_witness :
    GetRevisionCount ⟨none, none⟩ (.ok []) = .ok 0 ∧
    GetRevisionCount ⟨none, some "secret xyz not found in store"⟩ (.ok []) = .ok 0 ∧
    GetRevisionCount ⟨some (), none⟩ (.ok []) = .ok 1 ∧
    GetRevisionCount ⟨some (), none⟩ (.ok [⟨"r1"⟩, ⟨"r2"⟩, ⟨"r3"⟩]) = .ok 3 :=
  ⟨(getRevisionCount_value_cases ⟨none, none⟩ (.ok [])).1 rfl rfl,
   (getRevisionCount_value_cases ⟨none, some "secret xyz not found in store"⟩
      (.ok [])).2.1 _ rfl (by decide),
   (getRevisionCount_value_cases ⟨some (), none⟩ (.ok [])).2.2.1 () rfl rfl,
   by
    simpa using (getRevisionCount_value_cases ⟨some (), none⟩ (.ok [])).2.2.2 ()
      [⟨"r1"⟩, ⟨"r2"⟩, ⟨"r3"⟩] rfl rfl (by simp)⟩

/-- C4: `GetRevisionCount` returns a hard error exactly when the
existence check returned an error whose message does not contain
"not found"; a failing history lookup on an existing secret is never
an error — it yields the fallback count 1. -/
theorem getRevisionCount_error_policy
    (g : GetResult) (revs : Except String (List Revision)) :
    ((∃ e, GetRevisionCount g revs = .error e) ↔
      (∃ msg, g.err = some msg ∧ goContains msg "not found" = false)) ∧
    (∀ s e, g.err = none → g.secret = some s →
      GetRevisionCount g (.error e) = .ok 1) := by
  obtain ⟨gs, ge⟩ := g
  constructor
  · cases ge with
    | some msg =>
        cases hnf : goContains msg "not found" with
        | true => simp [GetRevisionCount, hnf]
        | false => simp [GetRevisionCount, hnf]
    | none =>
        cases gs with
        | none => simp [GetRevisionCount]
        | some u =>
            cases revs with
            | error e => simp [GetRevisionCount]
            | ok l =>
                cases hl : l.length with
                | zero => simp [GetRevisionCount, hl]
                | succ n => simp [GetRevisionCount, hl]
  · intro s e h1 h2
    subst h1; subst h2
    simp [GetRevisionCount]

/-- Witness for C4: a permission error on the existence check is
propagated, and a failing history lookup on an existing secret returns
the fallback 1. -/
theorem getRevisionCount_error_policy_witness :
    (∃ e, GetRevisionCount ⟨none, some "permission denied"⟩ (.ok []) = .error e) ∧
    GetRevisionCount ⟨some (), none⟩ (.error "revisions unsupported") = .ok 1 :=
  ⟨(getRevisionCount_error_policy ⟨none, some "permission denied"⟩ (.ok [])).1.mpr
      ⟨"permission denied", rfl, by decide⟩,
   (getRevisionCount_error_policy ⟨some (), none⟩
      (.error "revisions unsupported")).2 () "revisions unsupported" rfl rfl⟩

/-! ### Claim theorems for the Read drift detection -/

/-- C6: the drift warning of `Read` fires exactly when the stored
revision count is positive and the current count exceeds it; a stored
count of 0 never warns, and a current count equal to or below the
stored one never warns.  (The drift section has no failure outcome at
all: `readDrift` is a total function into warn-flag and refreshed
count.) -/
theorem readDrift_warns_iff (stored current : Int) :
    ((readDrift stored (.ok current)).1 = true ↔ (0 < stored ∧ stored < current)) ∧
    (readDrift 0 (.ok current)).1 = false ∧
    (current ≤ stored → (readDrift stored (.ok current)).1 = false) := by
  refine ⟨?_, ?_, ?_⟩
  · simp [readDrift]
  · simp [readDrift]
  · intro h
    have hnc : ¬ stored < current := not_lt.mpr h
    simp [readDrift, hnc]

/-- Witness for C6 at the spec's three examples: (1, 2) warns, (0, 5)
does not, (2, 2) does not. -/
theorem readDrift_warns_iff_witness :
    (readDrift 1 (.ok 2)).1 = true ∧
    (readDrift 0 (.ok 5)).1 = false ∧
    (readDrift 2 (.ok 2)).1 = false :=
  ⟨(readDrift_warns_iff 1 2).1.mpr (by decide),
   (readDrift_warns_iff 0 5).2.1,
   (readDrift_warns_iff 2 2).2.2 (by decide)⟩

/-! ### Claim theorems for the Update write gate -/

/-- C5: the underlying set operation is invoked exactly when the
caller-supplied version marker differs from the recorded one (an absent
recorded marker counting as different) and the supplied value is known;
with a differing marker but no known value, only the non-fatal warning
is emitted; with a non-differing marker, neither happens. -/
theorem updateGate_write_exactly (p s : Option Int) (cfg : TFValue) :
    (∀ v, (updateGate p s cfg).1 = some v ↔ (markerDiffers p s ∧ cfg = .known v)) ∧
    ((updateGate p s cfg).2 = true ↔
      (markerDiffers p s ∧ (cfg = .null ∨ cfg = .unknown))) ∧
    (¬ markerDiffers p s → updateGate p s cfg = (none, false)) := by
  cases p with
  | none =>
      have hnd : ¬ markerDiffers none s := by
        rintro ⟨pv, hpv, _⟩; exact Option.noConfusion hpv
      have hg : updateGate none s cfg = (none, false) := by simp [updateGate]
      refine ⟨?_, ?_, fun _ => hg⟩
      · intro v; rw [hg]; simp [hnd]
      · rw [hg]; simp [hnd]
  | some pv =>
      cases s with
      | none =>
          have hd : markerDiffers (some pv) none := ⟨pv, rfl, Or.inl rfl⟩
          cases cfg with
          | null =>
              have hg : updateGate (some pv) none .null = (none, true) := by
                simp [updateGate, TFValue.isNull, TFValue.isUnknown]
              refine ⟨?_, ?_, fun hnd => absurd hd hnd⟩
              · intro v; rw [hg]; simp
              · rw [hg]; simp [hd]
          | unknown =>
              have hg : updateGate (some pv) none .unknown = (none, true) := by
                simp [updateGate, TFValue.isNull, TFValue.isUnknown]
              refine ⟨?_, ?_, fun hnd => absurd hd hnd⟩
              · intro v; rw [hg]; simp
              · rw [hg]; simp [hd]
          | known w =>
              have hg : updateGate (some pv) none (.known w) = (some w, false) := by
                simp [updateGate, TFValue.isNull, TFValue.isUnknown, TFValue.valueString]
              refine ⟨?_, ?_, fun hnd => absurd hd hnd⟩
              · intro v; rw [hg]; simp [hd]
              · rw [hg]; simp
      | some sv =>
          by_cases hps : pv = sv
          · subst hps
            have hnd : ¬ markerDiffers (some pv) (some pv) := by
              rintro ⟨x, hx, hor⟩
              obtain rfl : pv = x := Option.some_inj.mp hx
              rcases hor with h | ⟨y, hy, hne⟩
              · exact Option.noConfusion h
              · exact hne (Option.some_inj.mp hy)
            have hg : updateGate (some pv) (some pv) cfg = (none, false) := by
              simp [updateGate]
            refine ⟨?_, ?_, fun _ => hg⟩
            · intro v; rw [hg]; simp [hnd]
            · rw [hg]; simp [hnd]
          · have hd : markerDiffers (some pv) (some sv) :=
              ⟨pv, rfl, Or.inr ⟨sv, rfl, hps⟩⟩
            cases cfg with
            | null =>
                have hg : updateGate (some pv) (some sv) .null = (none, true) := by
                  simp [updateGate, TFValue.isNull, TFValue.isUnknown, hps]
                refine ⟨?_, ?_, fun hnd => absurd hd hnd⟩
                · intro v; rw [hg]; simp
                · rw [hg]; simp [hd]
            | unknown =>
                have hg : updateGate (some pv) (some sv) .unknown = (none, true) := by
                  simp [updateGate, TFValue.isNull, TFValue.isUnknown, hps]
                refine ⟨?_, ?_, fun hnd => absurd hd hnd⟩
                · intro v; rw [hg]; simp
                · rw [hg]; simp [hd]
            | known w =>
                have hg : updateGate (some pv) (some sv) (.known w) = (some w, false) := by
                  simp [updateGate, TFValue.isNull, TFValue.isUnknown,
                    TFValue.valueString, hps]
                refine ⟨?_, ?_, fun hnd => absurd hd hnd⟩
                · intro v; rw [hg]; simp [hd]
                · rw [hg]; simp

/-- Witness for C5 at the spec's gate examples: version 1→2 with a
known value writes it; version 1→2 with a null value warns; version
1→1 does nothing; a plan without a marker against state marker 1 does
nothing. -/
theorem updateGate_write_exactly_witness :
    (updateGate (some 1) (some 2) (.known "v")).1 = some "v" ∧
    (updateGate (some 1) (some 2) TFValue.null).2 = true ∧
    updateGate (some 1) (some 1) (.known "v") = (none, false) ∧
    updateGate none (some 1) (.known "v") = (none, false) :=
  ⟨((updateGate_write_exactly (some 1) (some 2) (.known "v")).1 "v").mpr
      ⟨⟨1, rfl, Or.inr ⟨2, rfl, by decide⟩⟩, rfl⟩,
   (updateGate_write_exactly (some 1) (some 2) TFValue.null).2.1.mpr
      ⟨⟨1, rfl, Or.inr ⟨2, rfl, by decide⟩⟩, Or.inl rfl⟩,
   (updateGate_write_exactly (some 1) (some 1) (.known "v")).2.2
      (by
        rintro ⟨x, hx, h | ⟨y, hy, hne⟩⟩
        · exact Option.noConfusion h
        · have hx1 : (1 : Int) = x := Option.some_inj.mp hx
          have hy1 : (1 : Int) = y := Option.some_inj.mp hy
          omega),
   (updateGate_write_exactly none (some 1) (.known "v")).2.2
      (by rintro ⟨x, hx, _⟩; exact Option.noConfusion hx)⟩

/-- C9: when the plan carries no version marker but the state does
(the caller removed the marker), `Update` performs no write — the
store is unchanged — and emits no warning. -/
theorem update_marker_removal_is_noop
    (store : List (String × String)) (path : String) (sv : Int) (cfg : TFValue) :
    goUpdate store path none (some sv) cfg = (store, false) := by
  simp [goUpdate, updateGate]

/-! ### Claim theorems for GetEnvSecrets -/

theorem envFold_skips_failures (getSecret : String → Except String String)
    (pre : String) (paths : List String) :
    ∀ acc, envFold getSecret pre acc paths =
      envFold getSecret pre acc (paths.filter fun q => isOkB (getSecret q)) := by
  induction paths with
  | nil => intro acc; rfl
  | cons fp rest ih =>
      intro acc
      cases hg : getSecret fp with
      | error e => simp [envFold, hg, isOkB, List.filter_cons, ih]
      | ok v => simp [envFold, hg, isOkB, List.filter_cons, ih]

/-- C10: `GetEnvSecrets` returns a hard error exactly when the listing
(or the store initialization folded into it) fails; when the listing
succeeds, secrets whose individual read fails are skipped and the
result is the map built from exactly the readable secrets. -/
theorem getEnvSecrets_partial_failure (listResult : Except String (List String))
    (getSecret : String → Except String String) (pre : String) :
    ((∃ e, GetEnvSecrets listResult getSecret pre = .error e) ↔
      (∃ e, listResult = .error e)) ∧
    (∀ paths, listResult = .ok paths →
      GetEnvSecrets listResult getSecret pre =
        GetEnvSecrets (.ok (paths.filter fun q => isOkB (getSecret q)))
          getSecret pre) := by
  constructor
  · cases listResult with
    | error e => simp [GetEnvSecrets]
    | ok paths => simp [GetEnvSecrets]
  · rintro paths rfl
    simp only [GetEnvSecrets, Except.ok.injEq]
    exact envFold_skips_failures getSecret (goTrimSuffix pre "/") paths []

/-- Witness for C10: with the listing `[p/x, p/y]` and a read function
failing on `p/y`, the result equals the fold over the filtered listing
and is the singleton map `x ↦ 1`. -/
theorem getEnvSecrets_partial_failure_witness :
    GetEnvSecrets (.ok ["p/x", "p/y"]) sampleGetSecret "p" =
      GetEnvSecrets (.ok (["p/x", "p/y"].filter fun q => isOkB (sampleGetSecret q)))
        sampleGetSecret "p" ∧
    GetEnvSecrets (.ok ["p/x", "p/y"]) sampleGetSecret "p" = .ok [("x", "1")] :=
  ⟨(getEnvSecrets_partial_failure (.ok ["p/x", "p/y"]) sampleGetSecret "p").2
      ["p/x", "p/y"] rfl,
   rfl⟩

end Gopass
